import Mathlib

/-!
# Shallow embedding of the span hash-chain and proof-of-work subsystem

This file embeds two Python modules:

* `src/app/blockchain/proof.py` — `ProofGenerator` (proof-of-work search,
  proof verification, chained-proof verification, next-proof search).
* `src/models/hash_service.py` — `HashService` (hash-linked block ledger,
  chain verification, Merkle root).

SHA-256 itself is modelled abstractly: every definition is parameterised by
the hash function it uses (`sha : List Nat → List Nat` for the byte-level
digest used by `proof.py`, `H : String → String` for the
`sha256(x.encode()).hexdigest()` composite used by `hash_service.py`).
Structural claims are proved for every hash function; claims that depend on
cryptographic properties of SHA-256 (collision-freeness, never producing the
all-0xFF digest) carry those properties as explicit hypotheses.

Byte strings are `List Nat` with each entry a byte value; Python `bytes`
comparison is the lexicographic order `bytesLt`. Wall-clock time
(`time.time()`, `datetime.utcnow()`) is an input supplied by the
environment, so the embedded operations take the sampled timestamp as an
explicit argument.
-/

/-- Lexicographic comparison of byte strings, as Python compares `bytes`:
compare elementwise, a strict prefix is smaller than the longer string. -/
def bytesLt : List Nat → List Nat → Bool
  | [], [] => false
  | [], _ :: _ => true
  | _ :: _, [] => false
  | a :: as, b :: bs =>
    if a < b then true
    else if b < a then false
    else bytesLt as bs

/-- Big-endian 8-byte encoding `struct.pack(">Q", n)` of `n`
(all nonces in this codebase stay far below `2^64`). -/
def pack64 (n : Nat) : List Nat :=
  [n / 2 ^ 56 % 256, n / 2 ^ 48 % 256, n / 2 ^ 40 % 256, n / 2 ^ 32 % 256,
   n / 2 ^ 24 % 256, n / 2 ^ 16 % 256, n / 2 ^ 8 % 256, n % 256]

/-- The `Proof` dataclass of `proof.py`. -/
structure Proof where
  data : List Nat
  nonce : Nat
  hash : List Nat
  timestamp : Int
deriving DecidableEq, Repr, Inhabited

/-- Embeds `ProofGenerator.__init__`: `self.target = bytes([0] * difficulty) +
bytes([255] * (32 - difficulty))`. Python list repetition with a negative
count yields the empty list, hence the `Int.toNat` clamping. -/
def target (difficulty : Int) : List Nat :=
  List.replicate difficulty.toNat 0 ++ List.replicate (32 - difficulty).toNat 255

/-- Embeds `ProofGenerator._hash`: `sha256(data + struct.pack(">Q", nonce)).digest()`,
with the SHA-256 digest abstracted as `sha`. -/
def powHash (sha : List Nat → List Nat) (data : List Nat) (nonce : Nat) : List Nat :=
  sha (data ++ pack64 nonce)

/-- The `while nonce < max_attempts` loop of `ProofGenerator.generate_proof`,
written with the remaining number of attempts as structural fuel. -/
def generateLoop (sha : List Nat → List Nat) (tgt : List Nat) (data : List Nat)
    (start_time : Int) (nonce : Nat) : Nat → Option Proof
  | 0 => none
  | fuel + 1 =>
    let hash_result := powHash sha data nonce
    if bytesLt hash_result tgt then
      some ⟨data, nonce, hash_result, start_time⟩
    else
      generateLoop sha tgt data start_time (nonce + 1) fuel

/-- Embeds `ProofGenerator.generate_proof`: search nonces `0, 1, …` up to
`max_attempts`, returning the first proof whose digest is below the target;
`start_time` is the wall-clock time sampled once at the start of the call. -/
def generate_proof (sha : List Nat → List Nat) (difficulty : Int) (data : List Nat)
    (start_time : Int) (max_attempts : Nat) : Option Proof :=
  generateLoop sha (target difficulty) data start_time 0 max_attempts

/-- Embeds `ProofGenerator.verify_proof`: recompute the digest, require equality with
the stored hash and the digest to be below the target. -/
def verify_proof (sha : List Nat → List Nat) (difficulty : Int) (proof : Proof) : Bool :=
  let hash_result := powHash sha proof.data proof.nonce
  hash_result == proof.hash && bytesLt hash_result (target difficulty)

/-- The chain target of `ProofGenerator.verify_chain`:
`bytes([0] * (self.difficulty - 1)) + bytes([255] * (33 - self.difficulty))`. -/
def chain_target (difficulty : Int) : List Nat :=
  List.replicate (difficulty - 1).toNat 0 ++ List.replicate (33 - difficulty).toNat 255

/-- Embeds `ProofGenerator.verify_chain`: strict chronological order, then both
proofs individually valid, then the combined digest below the chain target. -/
def pow_verify_chain (sha : List Nat → List Nat) (difficulty : Int)
    (proof1 proof2 : Proof) : Bool :=
  if proof1.timestamp ≥ proof2.timestamp then false
  else if !(verify_proof sha difficulty proof1 && verify_proof sha difficulty proof2) then false
  else bytesLt (sha (proof1.hash ++ proof2.hash)) (chain_target difficulty)

/-- The search loop of `ProofGenerator.find_next_proof`, with the remaining
number of candidate nonces as structural fuel. -/
def findNextLoop (sha : List Nat → List Nat) (difficulty : Int) (previous_proof : Proof)
    (data : List Nat) (start_time : Int) (nonce : Nat) : Nat → Option Proof
  | 0 => none
  | fuel + 1 =>
    let hash_result := powHash sha data nonce
    let candidate : Proof := ⟨data, nonce, hash_result, start_time⟩
    if pow_verify_chain sha difficulty previous_proof candidate then
      some candidate
    else
      findNextLoop sha difficulty previous_proof data start_time (nonce + 1) fuel

/-- Embeds `ProofGenerator.find_next_proof`: try candidate nonces `0 … 999999`, each
stamped with the single `start_time` sampled at the start of the call, and
return the first candidate chaining validly after `previous_proof`. -/
def find_next_proof (sha : List Nat → List Nat) (difficulty : Int) (previous_proof : Proof)
    (data : List Nat) (start_time : Int) : Option Proof :=
  findNextLoop sha difficulty previous_proof data start_time 0 1000000

/-- The `Block` dataclass of `hash_service.py`. -/
structure Block where
  index : Nat
  timestamp : String
  data : String
  previous_hash : String
  hash : String
deriving DecidableEq, Repr, Inhabited

/-- The 64-character all-zero sentinel `"0" * 64` used as the
`previous_hash` of the first block. -/
def zeros64 : String :=
  String.mk (List.replicate 64 '0')

/-- Embeds `HashService.calculate_hash`: hex digest of the SHA-256 of
`str(index) + timestamp + data + previous_hash`, with the composite
`sha256(x.encode()).hexdigest()` abstracted as `H`. -/
def calculate_hash (H : String → String) (index : Nat) (timestamp data previous_hash : String) :
    String :=
  H (toString index ++ timestamp ++ data ++ previous_hash)

/-- Embeds `HashService.create_block`: build a block at index `len(blocks)` linking
to the hash of the last block (or the sentinel), and append it. `timestamp` is the
`datetime.utcnow().isoformat()` string supplied by the environment. The pair
returned is (new block, new block list). -/
def create_block (H : String → String) (blocks : List Block) (data timestamp : String) :
    Block × List Block :=
  let index := blocks.length
  let previous_hash :=
    match blocks.getLast? with
    | some b => b.hash
    | none => zeros64
  let block_hash := calculate_hash H index timestamp data previous_hash
  let block : Block := ⟨index, timestamp, data, previous_hash, block_hash⟩
  (block, blocks ++ [block])

/-- Result type of `HashService.verify_chain`: a dictionary carrying either
valid plus the block count, or invalid plus an error message. -/
inductive VerifyResult where
  | valid (block_count : Nat)
  | invalid (error : String)
deriving DecidableEq, Repr

/-- The `for i in range(1, len(self.blocks))` loop of
`HashService.verify_chain`: `previous` is block `i - 1`, `rest` the blocks
from index `i` on, `total` the full length reported on success. -/
def verifyChainLoop (H : String → String) (previous : Block) (rest : List Block)
    (i : Nat) (total : Nat) : VerifyResult :=
  match rest with
  | [] => .valid total
  | current :: rest' =>
    if current.previous_hash ≠ previous.hash then
      .invalid ("Block " ++ toString i ++ " has invalid previous hash reference")
    else if calculate_hash H current.index current.timestamp current.data current.previous_hash
        ≠ current.hash then
      .invalid ("Block " ++ toString i ++ " has invalid hash")
    else
      verifyChainLoop H current rest' (i + 1) total

/-- Embeds `HashService.verify_chain`: walk the blocks from index 1, checking the
link to the stored hash of the previous block and then the recomputed hash,
failing fast; report the block count on success. -/
def verify_chain (H : String → String) (blocks : List Block) : VerifyResult :=
  match blocks with
  | [] => .valid 0
  | b :: rest => verifyChainLoop H b rest 1 blocks.length

/-- Embeds `HashService.get_block`: the block at `index` when `0 <= index < len`. -/
def get_block (blocks : List Block) (index : Nat) : Option Block :=
  if index < blocks.length then some (blocks.getD index default) else none

/-- The `for i in range(0, len(hashes), 2)` pairing loop inside
`HashService.calculate_merkle_root`; it only ever runs on even-length lists
(the caller pads odd levels first). -/
def pairUp (H : String → String) : List String → List String
  | a :: b :: rest => H (a ++ b) :: pairUp H rest
  | _ => []

/-- One iteration of the `while len(hashes) > 1` loop of
`calculate_merkle_root`: duplicate the last hash when the level is odd, then
combine adjacent pairs. -/
def merkleStep (H : String → String) (hashes : List String) : List String :=
  let hs := if hashes.length % 2 = 1 then hashes ++ [hashes.getLastD ""] else hashes
  pairUp H hs

/-- The `while len(hashes) > 1` loop of `calculate_merkle_root`, with fuel;
`hashes.length` units of fuel always suffice (the level shrinks every
iteration). -/
def merkleLoop (H : String → String) (hashes : List String) : Nat → List String
  | 0 => hashes
  | fuel + 1 =>
    if hashes.length > 1 then merkleLoop H (merkleStep H hashes) fuel else hashes

/-- Embeds `HashService.calculate_merkle_root`: `H ""` for the empty list, otherwise
hash every item and reduce levels pairwise until one hash remains. -/
def calculate_merkle_root (H : String → String) (data_list : List String) : String :=
  if data_list = [] then H ""
  else
    let hashes := data_list.map H
    (merkleLoop H hashes hashes.length).headD ""

/-- The identity on strings, used to instantiate the abstract hex-digest
parameter on concrete inputs. -/
def idH : String → String := fun s => s

/-- A degenerate digest function returning the all-zero 32-byte digest,
used to instantiate the abstract byte-digest parameter on concrete inputs. -/
def zeroSha : List Nat → List Nat := fun _ => List.replicate 32 0

/-- A degenerate digest function returning the all-0xFF 32-byte digest: a
legitimate-length digest value that the strict `< target` comparison can
never accept, even at difficulty 0. -/
def maxSha : List Nat → List Nat := fun _ => List.replicate 32 255

/-- A digest function with a collision between the two second-level Merkle
preimages of the lists `[a, b]` and `[b, a]`, while the first-level digests
of `a` and `b` differ. -/
def collideH : String → String :=
  fun s => if s = "a" then "x" else if s = "b" then "y" else "z"

/-- The two per-block checks of the `verify_chain` loop body for a block
`current` whose predecessor is `previous`: the stored link matches the
stored hash of the predecessor, and the hash recomputed from the stored
fields matches the stored hash. -/
def pairOk (H : String → String) (previous current : Block) : Prop :=
  current.previous_hash = previous.hash ∧
  calculate_hash H current.index current.timestamp current.data current.previous_hash
    = current.hash

instance (H : String → String) (previous current : Block) : Decidable (pairOk H previous current) := by
  unfold pairOk
  exact instDecidableAnd

/-- The per-index form of `pairOk` over a whole block list. -/
def blockOk (H : String → String) (blocks : List Block) (i : Nat) : Prop :=
  pairOk H (blocks.getD (i - 1) default) (blocks.getD i default)

instance (H : String → String) (blocks : List Block) (i : Nat) : Decidable (blockOk H blocks i) := by
  unfold blockOk
  infer_instance

/-- The error message `verify_chain` produces for a failing block `current`
at index `i`: the link check is performed first, the recomputation check
second. -/
def chainErrorMsg (previous current : Block) (i : Nat) : String :=
  if current.previous_hash ≠ previous.hash then
    "Block " ++ toString i ++ " has invalid previous hash reference"
  else
    "Block " ++ toString i ++ " has invalid hash"

/-- A ledger built from the empty state by one `create_block` call per input
pair; each input supplies the data payload and the environment-supplied timestamp
string for that call. -/
def buildChain (H : String → String) (inputs : List (String × String)) : List Block :=
  inputs.foldl (fun blocks dt => (create_block H blocks dt.1 dt.2).2) []

/-- Spec-side Merkle level combination: pair adjacent hashes left-to-right
and hash each concatenation; a trailing unpaired hash of an odd-sized level
is duplicated to pair with itself. -/
def specLevel (H : String → String) : List String → List String
  | a :: b :: rest => H (a ++ b) :: specLevel H rest
  | [a] => [H (a ++ a)]
  | [] => []

/-- Spec-side reduction: combine levels repeatedly until a single root hash
remains (the fuel argument only forces termination; one unit per level
always suffices). -/
def specCombine (H : String → String) : List String → Nat → String
  | [], _ => ""
  | [r], _ => r
  | a :: b :: rest, fuel + 1 => specCombine H (specLevel H (a :: b :: rest)) fuel
  | _ :: _ :: _, 0 => ""

/-- Spec-side Merkle root, following the specification text: the empty list
yields the digest of the empty string; otherwise hash every item and reduce
levels pairwise until one root remains. -/
def merkleRootSpec (H : String → String) (data_list : List String) : String :=
  match data_list with
  | [] => H ""
  | _ => specCombine H (data_list.map H) data_list.length

/-- The chain invariant of the ledger: the first block links to the all-zero
sentinel, every later block links to the stored hash of its predecessor,
and the stored hash of every block equals the hash recomputed from its own stored
fields. -/
def ledgerInv (H : String → String) (blocks : List Block) : Prop :=
  (0 < blocks.length → (blocks.getD 0 default).previous_hash = zeros64) ∧
  (∀ i, 0 < i → i < blocks.length →
    (blocks.getD i default).previous_hash = (blocks.getD (i - 1) default).hash) ∧
  (∀ i, i < blocks.length →
    calculate_hash H (blocks.getD i default).index (blocks.getD i default).timestamp
      (blocks.getD i default).data (blocks.getD i default).previous_hash
      = (blocks.getD i default).hash)

/-! ## Generic loop lemmas for the proof-of-work search -/

theorem generateLoop_none_iff (sha : List Nat → List Nat) (tgt data : List Nat) (st : Int) :
    ∀ (fuel nonce : Nat), generateLoop sha tgt data st nonce fuel = none ↔
      ∀ m, nonce ≤ m → m < nonce + fuel → bytesLt (powHash sha data m) tgt = false := by
  intro fuel
  induction fuel with
  | zero =>
    intro nonce
    simp only [generateLoop]
    constructor
    · intro _ m h1 h2
      omega
    · intro _
      trivial
  | succ fuel ih =>
    intro nonce
    simp only [generateLoop]
    by_cases h : bytesLt (powHash sha data nonce) tgt = true
    · rw [if_pos h]
      constructor
      · intro hc
        cases hc
      · intro hall
        have := hall nonce le_rfl (by omega)
        rw [h] at this
        cases this
    · rw [if_neg h, ih (nonce + 1)]
      have hfalse : bytesLt (powHash sha data nonce) tgt = false := by
        simpa using h
      constructor
      · intro hall m h1 h2
        rcases Nat.eq_or_lt_of_le h1 with heq | hlt
        · rw [← heq]
          exact hfalse
        · exact hall m hlt (by omega)
      · intro hall m h1 h2
        exact hall m (by omega) (by omega)

theorem generateLoop_some_iff (sha : List Nat → List Nat) (tgt data : List Nat) (st : Int) :
    ∀ (fuel nonce : Nat) (p : Proof), generateLoop sha tgt data st nonce fuel = some p ↔
      ∃ m, nonce ≤ m ∧ m < nonce + fuel ∧ bytesLt (powHash sha data m) tgt = true ∧
        (∀ j, nonce ≤ j → j < m → bytesLt (powHash sha data j) tgt = false) ∧
        p = ⟨data, m, powHash sha data m, st⟩ := by
  intro fuel
  induction fuel with
  | zero =>
    intro nonce p
    simp only [generateLoop]
    constructor
    · intro hc
      cases hc
    · rintro ⟨m, h1, h2, -⟩
      omega
  | succ fuel ih =>
    intro nonce p
    simp only [generateLoop]
    by_cases h : bytesLt (powHash sha data nonce) tgt = true
    · rw [if_pos h]
      constructor
      · intro hp
        refine ⟨nonce, le_rfl, by omega, h, ?_, ?_⟩
        · intro j h1 h2
          omega
        · cases hp
          rfl
      · rintro ⟨m, h1, h2, hhit, hmin, rfl⟩
        rcases Nat.eq_or_lt_of_le h1 with heq | hlt
        · rw [← heq]
        · have := hmin nonce le_rfl hlt
          rw [h] at this
          cases this
    · rw [if_neg h, ih (nonce + 1)]
      have hfalse : bytesLt (powHash sha data nonce) tgt = false := by
        simpa using h
      constructor
      · rintro ⟨m, h1, h2, hhit, hmin, rfl⟩
        refine ⟨m, by omega, by omega, hhit, ?_, rfl⟩
        intro j hj1 hj2
        rcases Nat.eq_or_lt_of_le hj1 with heq | hlt
        · rw [← heq]
          exact hfalse
        · exact hmin j hlt hj2
      · rintro ⟨m, h1, h2, hhit, hmin, rfl⟩
        have hm : nonce + 1 ≤ m := by
          rcases Nat.eq_or_lt_of_le h1 with heq | hlt
          · exfalso
            rw [← heq] at hhit
            rw [hhit] at hfalse
            cases hfalse
          · omega
        exact ⟨m, hm, by omega, hhit, fun j hj1 hj2 => hmin j (by omega) hj2, rfl⟩

/-! ## C2: chained-proof verification -/

/-- C2: `verify_chain` on two proofs succeeds exactly when the timestamp of
the first proof is strictly below that of the second, both proofs verify individually,
and the SHA-256 digest of the two concatenated hashes is below the chain
target built with one fewer leading zero byte; in particular equal
timestamps alone already make it fail. -/
theorem pow_verify_chain_iff (sha : List Nat → List Nat) (difficulty : Int)
    (proof1 proof2 : Proof) :
    (pow_verify_chain sha difficulty proof1 proof2 = true ↔
      (proof1.timestamp < proof2.timestamp ∧
       verify_proof sha difficulty proof1 = true ∧
       verify_proof sha difficulty proof2 = true ∧
       bytesLt (sha (proof1.hash ++ proof2.hash)) (chain_target difficulty) = true)) ∧
    (proof1.timestamp = proof2.timestamp →
      pow_verify_chain sha difficulty proof1 proof2 = false) := by
  constructor
  · rw [pow_verify_chain]
    by_cases h1 : proof1.timestamp ≥ proof2.timestamp
    · rw [if_pos h1]
      constructor
      · intro hc
        cases hc
      · rintro ⟨hlt, -⟩
        exact absurd hlt (not_lt_of_ge h1)
    · rw [if_neg h1]
      by_cases hv : (verify_proof sha difficulty proof1 &&
          verify_proof sha difficulty proof2) = true
      · rw [if_neg (by simp [hv])]
        simp only [Bool.and_eq_true] at hv
        simp [hv.1, hv.2, lt_of_not_ge h1]
      · have hv' : (verify_proof sha difficulty proof1 &&
            verify_proof sha difficulty proof2) = false := by
          simpa using hv
        rw [if_pos (by rw [hv']; rfl)]
        simp only [Bool.and_eq_true] at hv
        constructor
        · intro hc
          cases hc
        · rintro ⟨-, hva, hvb, -⟩
          exact absurd ⟨hva, hvb⟩ hv
  · intro heq
    simp [pow_verify_chain, heq]

/-- Witness for C2: two individually valid equal-timestamp proofs fail the
chained verification. -/
theorem pow_verify_chain_iff_witness :
    pow_verify_chain zeroSha 3 ⟨[1], 0, List.replicate 32 0, 5⟩
      ⟨[2], 0, List.replicate 32 0, 5⟩ = false :=
  (pow_verify_chain_iff zeroSha 3 ⟨[1], 0, List.replicate 32 0, 5⟩
    ⟨[2], 0, List.replicate 32 0, 5⟩).2 rfl

/-! ## C3: proof generation -/

/-- C3: `generate_proof` scans nonces strictly increasing from 0 with no
skipping: it returns `None` exactly when no nonce below `max_attempts` has a
digest below the target, and it returns a proof exactly when the returned
nonce is the least nonce below `max_attempts` whose digest is below the
target, its hash is that digest, its data the input data, and its timestamp
the wall-clock time sampled at the start of the call. -/
theorem generate_proof_spec (sha : List Nat → List Nat) (difficulty : Int)
    (data : List Nat) (start_time : Int) (max_attempts : Nat) :
    (generate_proof sha difficulty data start_time max_attempts = none ↔
      ∀ n, n < max_attempts → bytesLt (powHash sha data n) (target difficulty) = false) ∧
    (∀ p, generate_proof sha difficulty data start_time max_attempts = some p ↔
      (p.nonce < max_attempts ∧
       bytesLt (powHash sha data p.nonce) (target difficulty) = true ∧
       (∀ j, j < p.nonce → bytesLt (powHash sha data j) (target difficulty) = false) ∧
       p.data = data ∧ p.hash = powHash sha data p.nonce ∧ p.timestamp = start_time)) := by
  constructor
  · rw [generate_proof, generateLoop_none_iff]
    constructor
    · intro hall n hn
      exact hall n (Nat.zero_le n) (by omega)
    · intro hall m _ hm
      exact hall m (by omega)
  · intro p
    rw [generate_proof, generateLoop_some_iff]
    constructor
    · rintro ⟨m, -, h2, hhit, hmin, rfl⟩
      exact ⟨show m < max_attempts by omega, hhit,
        fun j hj => hmin j (Nat.zero_le j) hj, rfl, rfl, rfl⟩
    · rintro ⟨h1, hhit, hmin, hd, hh, ht⟩
      exact ⟨p.nonce, Nat.zero_le _, show p.nonce < 0 + max_attempts by omega, hhit,
        fun j _ hj => hmin j hj, by rw [← hh, ← hd, ← ht]⟩

/-- Witness for C3: a digest function hitting the difficulty-0 target at the
first nonce makes `generate_proof` return the nonce-0 proof. -/
theorem generate_proof_spec_witness :
    generate_proof zeroSha 0 [] 0 1 = some ⟨[], 0, List.replicate 32 0, 0⟩ :=
  ((generate_proof_spec zeroSha 0 [] 0 1).2 ⟨[], 0, List.replicate 32 0, 0⟩).mpr
    (by
      refine ⟨by decide, by decide, ?_, rfl, by decide, rfl⟩
      intro j hj
      exact absurd hj (Nat.not_lt_zero j))

/-! ## C6: difficulty 0 -/

theorem bytesLt_replicate_top : ∀ (h : List Nat) (n : Nat), h.length = n →
    (∀ b ∈ h, b ≤ 255) → h ≠ List.replicate n 255 →
    bytesLt h (List.replicate n 255) = true := by
  intro h
  induction h with
  | nil =>
    intro n hlen _ hne
    exact absurd (by rw [← hlen]; rfl) hne
  | cons a t ih =>
    intro n hlen hb hne
    obtain ⟨m, rfl⟩ : ∃ m, n = m + 1 := ⟨t.length, by simp at hlen; omega⟩
    rw [List.replicate_succ]
    by_cases ha : a < 255
    · simp [bytesLt, ha]
    · have ha255 : a = 255 := by
        have := hb a (List.mem_cons_self a t)
        omega
      subst ha255
      have hred : bytesLt (255 :: t) (255 :: List.replicate m 255)
          = bytesLt t (List.replicate m 255) := by
        simp [bytesLt]
      rw [hred]
      apply ih
      · simp at hlen
        omega
      · intro b hbm
        exact hb b (List.mem_cons_of_mem 255 hbm)
      · intro hteq
        exact hne (by rw [List.replicate_succ, hteq])

/-- C6 counterexample: a 32-byte digest function that always returns the
all-0xFF digest defeats difficulty 0 at every nonce — the strict comparison
`hash < target` rejects the maximal digest, so the difficulty-0 target does
not span the full digest space, and `generate_proof` returns `None` instead
of a nonce-0 proof. -/
theorem generate_proof_difficulty_zero_cex :
    (maxSha ([0] ++ pack64 0)).length = 32 ∧
    generate_proof maxSha 0 [0] 0 3 = none := by decide

/-- C6 amended: at difficulty 0, `generate_proof` succeeds on the very first
nonce for every data whose digest is a 32-byte string other than the
all-0xFF maximum; the strict `<` against the 32-byte all-0xFF target
excludes exactly that one digest value. -/
theorem generate_proof_difficulty_zero (sha : List Nat → List Nat) (data : List Nat)
    (start_time : Int) (max_attempts : Nat)
    (hlen : (powHash sha data 0).length = 32)
    (hbytes : ∀ b ∈ powHash sha data 0, b ≤ 255)
    (hne : powHash sha data 0 ≠ List.replicate 32 255)
    (hA : 1 ≤ max_attempts) :
    generate_proof sha 0 data start_time max_attempts
      = some ⟨data, 0, powHash sha data 0, start_time⟩ := by
  have hhit : bytesLt (powHash sha data 0) (target 0) = true := by
    rw [show target 0 = List.replicate 32 255 from rfl]
    exact bytesLt_replicate_top _ 32 hlen hbytes hne
  obtain ⟨k, rfl⟩ : ∃ k, max_attempts = k + 1 := ⟨max_attempts - 1, by omega⟩
  rw [generate_proof]
  simp only [generateLoop]
  rw [if_pos hhit]

/-- Witness for the amended C6. -/
theorem generate_proof_difficulty_zero_witness :
    generate_proof zeroSha 0 [3] 9 5 = some ⟨[3], 0, List.replicate 32 0, 9⟩ :=
  generate_proof_difficulty_zero zeroSha [3] 9 5 (by decide) (by decide) (by decide)
    (by decide)

/-! ## C7: proof verification and tampering -/

/-- C7 counterexample: with a colliding digest function (every input maps to
the all-zero digest), the nonce-0 proof returned by `generate_proof` still
verifies after its nonce is changed from 0 to 1, because the digest at the
new nonce collides with the stored hash; the nonce-tampering half of the
claim therefore holds only up to collision-freeness of the digest. -/
theorem verify_proof_tamper_cex :
    generate_proof zeroSha 0 [5] 7 1 = some ⟨[5], 0, List.replicate 32 0, 7⟩ ∧
    verify_proof zeroSha 0 ⟨[5], 1, List.replicate 32 0, 7⟩ = true := by decide

/-- C7 amended: `verify_proof` is true exactly when the recomputed digest
equals the stored hash and is below the target; every proof returned by
`generate_proof` verifies; any change to the stored hash of a verifying
proof makes verification fail; and a change of the nonce makes verification
fail provided the digest at the new nonce differs from the stored hash
(which for SHA-256 is a no-collision assumption). -/
theorem verify_proof_spec (sha : List Nat → List Nat) (difficulty : Int) (p : Proof) :
    (verify_proof sha difficulty p = true ↔
      (powHash sha p.data p.nonce = p.hash ∧
       bytesLt (powHash sha p.data p.nonce) (target difficulty) = true)) ∧
    (∀ data st maxA, generate_proof sha difficulty data st maxA = some p →
      verify_proof sha difficulty p = true) ∧
    (∀ h2, h2 ≠ p.hash → verify_proof sha difficulty p = true →
      verify_proof sha difficulty ⟨p.data, p.nonce, h2, p.timestamp⟩ = false) ∧
    (∀ n2, powHash sha p.data n2 ≠ p.hash →
      verify_proof sha difficulty ⟨p.data, n2, p.hash, p.timestamp⟩ = false) := by
  refine ⟨?_, ?_, ?_, ?_⟩
  · simp [verify_proof, Bool.and_eq_true, beq_iff_eq]
  · intro data st maxA hgen
    rw [generate_proof, generateLoop_some_iff] at hgen
    obtain ⟨m, -, -, hhit, -, rfl⟩ := hgen
    simp [verify_proof, hhit]
  · intro h2 hne hv
    simp only [verify_proof, Bool.and_eq_true, beq_iff_eq] at hv
    have hne2 : powHash sha p.data p.nonce ≠ h2 := by
      rw [hv.1]
      exact fun he => hne he.symm
    simp [verify_proof, hne2]
  · intro n2 hne
    simp [verify_proof, hne]

/-- Witness for the amended C7: tampering with the stored hash of a
verifying proof makes verification fail. -/
theorem verify_proof_spec_witness :
    verify_proof zeroSha 0 ⟨[5], 0, List.replicate 32 1, 7⟩ = false :=
  (verify_proof_spec zeroSha 0 ⟨[5], 0, List.replicate 32 0, 7⟩).2.2.1
    (List.replicate 32 1) (by decide) (by decide)

/-! ## C8: malformed difficulty -/

/-- C8 counterexample: the constructor performs no validation — a negative
difficulty (-1) and an over-wide difficulty (33) are silently coerced into
degenerate targets instead of surfacing any error; `bytes([0] * d)` on a
negative `d` is simply empty, so no code path in `__init__` can fail. -/
theorem target_malformed_cex :
    target (-1) = List.replicate 33 255 ∧ target 33 = List.replicate 33 0 := by decide

/-- C8 amended: the constructor accepts any integer difficulty without
raising: a negative difficulty is coerced to the all-0xFF target of width
`32 - d` (no leading zero bytes at all), and a difficulty of at least 32 is
coerced to the all-zero target of width `d`. -/
theorem target_malformed (d : Int) :
    (d < 0 → target d = List.replicate (32 - d).toNat 255) ∧
    (32 ≤ d → target d = List.replicate d.toNat 0) := by
  constructor
  · intro hd
    rw [target, Int.toNat_of_nonpos (le_of_lt hd), List.replicate_zero, List.nil_append]
  · intro hd
    rw [target, Int.toNat_eq_zero.mpr (by omega : (32 : Int) - d ≤ 0), List.replicate_zero,
      List.append_nil]

/-- Witness for the amended C8. -/
theorem target_malformed_witness :
    target (-1) = List.replicate ((32 : Int) - (-1)).toNat 255 :=
  (target_malformed (-1)).1 (by decide)

/-! ## C10: next-proof search with a stale previous proof -/

theorem pow_verify_chain_stale (sha : List Nat → List Nat) (difficulty : Int)
    (p1 p2 : Proof) (h : p1.timestamp ≥ p2.timestamp) :
    pow_verify_chain sha difficulty p1 p2 = false := by
  rw [pow_verify_chain, if_pos h]

theorem findNextLoop_stale (sha : List Nat → List Nat) (difficulty : Int)
    (previous_proof : Proof) (data : List Nat) (start_time : Int)
    (h : previous_proof.timestamp ≥ start_time) :
    ∀ fuel nonce, findNextLoop sha difficulty previous_proof data start_time nonce fuel
      = none := by
  intro fuel
  induction fuel with
  | zero =>
    intro nonce
    rfl
  | succ fuel ih =>
    intro nonce
    have hc := pow_verify_chain_stale sha difficulty previous_proof
      ⟨data, nonce, powHash sha data nonce, start_time⟩ h
    simp only [findNextLoop, hc]
    simpa using ih (nonce + 1)

/-- C10: `find_next_proof` stamps every candidate with the single wall-clock
time sampled at the start of the call; whenever the timestamp of the
previous proof is at least that start time, every one of the million candidates
fails the strict chronological check inside `verify_chain`, so the search
necessarily returns `None` regardless of data, difficulty, or hash values. -/
theorem find_next_proof_stale (sha : List Nat → List Nat) (difficulty : Int)
    (previous_proof : Proof) (data : List Nat) (start_time : Int)
    (h : previous_proof.timestamp ≥ start_time) :
    find_next_proof sha difficulty previous_proof data start_time = none := by
  rw [find_next_proof]
  exact findNextLoop_stale sha difficulty previous_proof data start_time h 1000000 0

/-- Witness for C10: a previous proof generated in the same second as the
call (equal timestamps) forces a `None` result. -/
theorem find_next_proof_stale_witness :
    find_next_proof zeroSha 3 ⟨[1], 0, List.replicate 32 0, 5⟩ [2] 5 = none :=
  find_next_proof_stale zeroSha 3 ⟨[1], 0, List.replicate 32 0, 5⟩ [2] 5 (by decide)

/-! ## Generic lemmas for ledger chain verification -/

theorem verifyChainLoop_valid_count (H : String → String) :
    ∀ (rest : List Block) (previous : Block) (i total n : Nat),
    verifyChainLoop H previous rest i total = .valid n → n = total := by
  intro rest
  induction rest with
  | nil =>
    intro previous i total n h
    injection h with h
    exact h.symm
  | cons c rest ih =>
    intro previous i total n h
    simp only [verifyChainLoop] at h
    by_cases h1 : c.previous_hash = previous.hash
    · rw [if_neg (not_not_intro h1)] at h
      by_cases h2 : calculate_hash H c.index c.timestamp c.data c.previous_hash = c.hash
      · rw [if_neg (not_not_intro h2)] at h
        exact ih c (i + 1) total n h
      · rw [if_pos h2] at h
        exact VerifyResult.noConfusion h
    · rw [if_pos h1] at h
      exact VerifyResult.noConfusion h

theorem verifyChainLoop_valid_iff (H : String → String) :
    ∀ (rest : List Block) (previous : Block) (i total : Nat),
    verifyChainLoop H previous rest i total = .valid total ↔
      ∀ k, k < rest.length →
        pairOk H ((previous :: rest).getD k default) (rest.getD k default) := by
  intro rest
  induction rest with
  | nil =>
    intro previous i total
    constructor
    · intro _ k hk
      exact absurd hk (by simp)
    · intro _
      rfl
  | cons c rest ih =>
    intro previous i total
    by_cases h1 : c.previous_hash = previous.hash
    · by_cases h2 : calculate_hash H c.index c.timestamp c.data c.previous_hash = c.hash
      · have hstep : verifyChainLoop H previous (c :: rest) i total
            = verifyChainLoop H c rest (i + 1) total := by
          simp only [verifyChainLoop]
          rw [if_neg (not_not_intro h1), if_neg (not_not_intro h2)]
        rw [hstep, ih c (i + 1) total]
        constructor
        · intro hall k hk
          match k with
          | 0 => exact ⟨h1, h2⟩
          | k + 1 => exact hall k (by simp at hk ⊢; omega)
        · intro hall k hk
          exact hall (k + 1) (by simp at hk ⊢; omega)
      · apply iff_of_false
        · have hbad : verifyChainLoop H previous (c :: rest) i total
              = .invalid ("Block " ++ toString i ++ " has invalid hash") := by
            simp only [verifyChainLoop]
            rw [if_neg (not_not_intro h1), if_pos h2]
          rw [hbad]
          intro hcon
          exact VerifyResult.noConfusion hcon
        · intro hall
          exact h2 (hall 0 (by simp)).2
    · apply iff_of_false
      · have hbad : verifyChainLoop H previous (c :: rest) i total
            = .invalid ("Block " ++ toString i ++ " has invalid previous hash reference") := by
          simp only [verifyChainLoop]
          rw [if_pos h1]
        rw [hbad]
        intro hcon
        exact VerifyResult.noConfusion hcon
      · intro hall
        exact h1 (hall 0 (by simp)).1

theorem verifyChainLoop_invalid (H : String → String) :
    ∀ (rest : List Block) (previous : Block) (i total : Nat) (e : String),
    verifyChainLoop H previous rest i total = .invalid e →
    ∃ k, k < rest.length ∧
      ¬ pairOk H ((previous :: rest).getD k default) (rest.getD k default) ∧
      (∀ j, j < k → pairOk H ((previous :: rest).getD j default) (rest.getD j default)) ∧
      e = chainErrorMsg ((previous :: rest).getD k default) (rest.getD k default) (i + k) := by
  intro rest
  induction rest with
  | nil =>
    intro previous i total e h
    exact VerifyResult.noConfusion h
  | cons c rest ih =>
    intro previous i total e h
    by_cases h1 : c.previous_hash = previous.hash
    · by_cases h2 : calculate_hash H c.index c.timestamp c.data c.previous_hash = c.hash
      · have hstep : verifyChainLoop H previous (c :: rest) i total
            = verifyChainLoop H c rest (i + 1) total := by
          simp only [verifyChainLoop]
          rw [if_neg (not_not_intro h1), if_neg (not_not_intro h2)]
        rw [hstep] at h
        obtain ⟨k, hk, hbad, hmin, he⟩ := ih c (i + 1) total e h
        refine ⟨k + 1, by simp at hk ⊢; omega, hbad, ?_, ?_⟩
        · intro j hj
          match j with
          | 0 => exact ⟨h1, h2⟩
          | j + 1 => exact hmin j (by omega)
        · rw [he]
          congr 1
          omega
      · have hbad : verifyChainLoop H previous (c :: rest) i total
            = .invalid ("Block " ++ toString i ++ " has invalid hash") := by
          simp only [verifyChainLoop]
          rw [if_neg (not_not_intro h1), if_pos h2]
        rw [hbad] at h
        injection h with he
        refine ⟨0, by simp, ?_, ?_, ?_⟩
        · intro hpair
          exact h2 hpair.2
        · intro j hj
          exact absurd hj (Nat.not_lt_zero j)
        · rw [← he]
          show _ = chainErrorMsg previous c (i + 0)
          rw [chainErrorMsg, if_neg (not_not_intro h1)]
          simp
    · have hbad : verifyChainLoop H previous (c :: rest) i total
          = .invalid ("Block " ++ toString i ++ " has invalid previous hash reference") := by
        simp only [verifyChainLoop]
        rw [if_pos h1]
      rw [hbad] at h
      injection h with he
      refine ⟨0, by simp, ?_, ?_, ?_⟩
      · intro hpair
        exact h1 hpair.1
      · intro j hj
        exact absurd hj (Nat.not_lt_zero j)
      · rw [← he]
        show _ = chainErrorMsg previous c (i + 0)
        rw [chainErrorMsg, if_pos h1]
        simp

/-! ## C4: ledger chain verification -/

/-- C4: `verify_chain` walks the blocks from index 1 forward, checking for
each block first the link to the stored hash of the previous block and then the
recomputed hash; an empty or single-block ledger is valid, a valid result
always carries the total block count, validity holds exactly when every
index from 1 on passes both checks, and an invalid result pinpoints the
lowest failing index together with the message of the first check that
failed there. -/
theorem verify_chain_spec (H : String → String) (blocks : List Block) :
    (blocks.length ≤ 1 → verify_chain H blocks = .valid blocks.length) ∧
    (∀ n, verify_chain H blocks = .valid n → n = blocks.length) ∧
    (verify_chain H blocks = .valid blocks.length ↔
      ∀ i, 0 < i → i < blocks.length → blockOk H blocks i) ∧
    (∀ e, verify_chain H blocks = .invalid e →
      ∃ i, 0 < i ∧ i < blocks.length ∧ ¬ blockOk H blocks i ∧
        (∀ j, 0 < j → j < i → blockOk H blocks j) ∧
        e = chainErrorMsg (blocks.getD (i - 1) default) (blocks.getD i default) i) := by
  match blocks with
  | [] =>
    refine ⟨fun _ => rfl, ?_, ?_, ?_⟩
    · intro n h
      injection h with h
      exact h.symm
    · exact iff_of_true rfl (fun i _ hlen => absurd hlen (by simp))
    · intro e h
      exact VerifyResult.noConfusion h
  | b :: rest =>
    have hvc : verify_chain H (b :: rest) = verifyChainLoop H b rest 1 (b :: rest).length :=
      rfl
    refine ⟨?_, ?_, ?_, ?_⟩
    · intro hlen
      have hrest : rest = [] := by
        cases rest with
        | nil => rfl
        | cons x xs => simp at hlen
      subst hrest
      rfl
    · intro n h
      rw [hvc] at h
      exact verifyChainLoop_valid_count H rest b 1 _ n h
    · rw [hvc, verifyChainLoop_valid_iff]
      constructor
      · intro hall i hi hilen
        obtain ⟨k, rfl⟩ : ∃ k, i = k + 1 := ⟨i - 1, by omega⟩
        exact hall k (by simp at hilen; omega)
      · intro hall k hk
        exact hall (k + 1) (by omega) (by simp; omega)
    · intro e h
      rw [hvc] at h
      obtain ⟨k, hk, hbad, hmin, he⟩ :=
        verifyChainLoop_invalid H rest b 1 (b :: rest).length e h
      refine ⟨k + 1, by omega, by simp; omega, hbad, ?_, ?_⟩
      · intro j hj0 hjk
        obtain ⟨j2, rfl⟩ : ∃ j2, j = j2 + 1 := ⟨j - 1, by omega⟩
        exact hmin j2 (by omega)
      · rw [he, Nat.add_comm 1 k]
        rfl

/-- Witness for C4: a fresh two-block ledger whose second block links to the
stored hash of the first verifies as valid with count 2. -/
theorem verify_chain_spec_witness :
    verify_chain idH ((create_block idH (create_block idH [] "a" "t0").2 "b" "t1").2)
      = .valid 2 :=
  (verify_chain_spec idH
    ((create_block idH (create_block idH [] "a" "t0").2 "b" "t1").2)).2.2.1.mpr
    (by
      intro i h0 hlen
      have hl : (create_block idH (create_block idH [] "a" "t0").2 "b" "t1").2.length = 2 := by
        decide
      rw [hl] at hlen
      have hi : i = 1 := by omega
      subst hi
      decide)

/-! ## C1: the chain invariant is preserved by create_block -/

theorem create_block_snd (H : String → String) (blocks : List Block) (data timestamp : String) :
    (create_block H blocks data timestamp).2 = blocks ++
      [⟨blocks.length, timestamp, data,
        (match blocks.getLast? with | some b => b.hash | none => zeros64),
        calculate_hash H blocks.length timestamp data
          (match blocks.getLast? with | some b => b.hash | none => zeros64)⟩] :=
  rfl

theorem getLast?_eq_getD (blocks : List Block) (h : blocks ≠ []) :
    blocks.getLast? = some (blocks.getD (blocks.length - 1) default) := by
  induction blocks with
  | nil => exact absurd rfl h
  | cons b rest ih =>
    cases rest with
    | nil => rfl
    | cons c rest2 =>
      rw [List.getLast?_cons_cons, ih (by simp)]
      simp

theorem ledgerInv_create (H : String → String) (blocks : List Block) (data timestamp : String)
    (hinv : ledgerInv H blocks) : ledgerInv H (create_block H blocks data timestamp).2 := by
  obtain ⟨hzero, hlink, hhash⟩ := hinv
  rw [create_block_snd]
  set prev := (match blocks.getLast? with | some b => b.hash | none => zeros64) with hprev
  set newb : Block := ⟨blocks.length, timestamp, data, prev,
    calculate_hash H blocks.length timestamp data prev⟩ with hnewb
  have hlen : (blocks ++ [newb]).length = blocks.length + 1 := by simp
  have hgetlt : ∀ i, i < blocks.length →
      (blocks ++ [newb]).getD i default = blocks.getD i default := by
    intro i hi
    rw [List.getD_eq_getElem?_getD, List.getD_eq_getElem?_getD,
      List.getElem?_append_left hi]
  have hgetlast : (blocks ++ [newb]).getD blocks.length default = newb := by
    rw [List.getD_eq_getElem?_getD, List.getElem?_append_right (le_refl _)]
    simp
  refine ⟨?_, ?_, ?_⟩
  · intro _
    cases blocks with
    | nil => rfl
    | cons b rest =>
      rw [hgetlt 0 (by simp)]
      exact hzero (by simp)
  · intro i h0 hi
    rw [hlen] at hi
    rcases Nat.lt_or_ge i blocks.length with hilt | hige
    · rw [hgetlt i hilt, hgetlt (i - 1) (by omega)]
      exact hlink i h0 hilt
    · have hieq : i = blocks.length := by omega
      rw [hieq, hgetlast, hgetlt (blocks.length - 1) (by omega)]
      show prev = (blocks.getD (blocks.length - 1) default).hash
      have hbne : blocks ≠ [] := by
        intro hb
        rw [hb] at hieq
        simp at hieq
        omega
      rw [hprev, getLast?_eq_getD blocks hbne]
  · intro i hi
    rw [hlen] at hi
    rcases Nat.lt_or_ge i blocks.length with hilt | hige
    · rw [hgetlt i hilt]
      exact hhash i hilt
    · have hieq : i = blocks.length := by omega
      subst hieq
      rw [hgetlast]

theorem ledgerInv_foldl (H : String → String) :
    ∀ (inputs : List (String × String)) (blocks : List Block), ledgerInv H blocks →
    ledgerInv H (inputs.foldl (fun bs dt => (create_block H bs dt.1 dt.2).2) blocks) := by
  intro inputs
  induction inputs with
  | nil =>
    intro blocks hinv
    exact hinv
  | cons dt rest ih =>
    intro blocks hinv
    exact ih _ (ledgerInv_create H blocks dt.1 dt.2 hinv)

theorem foldl_create_length (H : String → String) :
    ∀ (inputs : List (String × String)) (blocks : List Block),
    (inputs.foldl (fun bs dt => (create_block H bs dt.1 dt.2).2) blocks).length
      = blocks.length + inputs.length := by
  intro inputs
  induction inputs with
  | nil =>
    intro blocks
    simp
  | cons dt rest ih =>
    intro blocks
    rw [List.foldl_cons, ih, create_block_snd]
    simp
    omega

theorem ledgerInv_verify_chain (H : String → String) (blocks : List Block)
    (hinv : ledgerInv H blocks) : verify_chain H blocks = .valid blocks.length := by
  obtain ⟨-, hlink, hhash⟩ := hinv
  cases blocks with
  | nil => rfl
  | cons b rest =>
    show verifyChainLoop H b rest 1 (b :: rest).length = .valid (b :: rest).length
    rw [verifyChainLoop_valid_iff]
    intro k hk
    constructor
    · exact hlink (k + 1) (by omega) (by simp; omega)
    · exact hhash (k + 1) (by simp; omega)

/-- C1: every ledger reachable from the empty ledger by a sequence of
`create_block` calls satisfies the chain invariant — block 0 links to the
64-character all-zero sentinel, every later block links to its
stored hash of its predecessor, the stored hash of every block equals the hash
recomputed from its own stored index, timestamp, data, and previous hash —
and consequently `verify_chain` reports it valid with block count equal to
the number of appended blocks. -/
theorem create_block_chain_invariant (H : String → String) (inputs : List (String × String)) :
    (buildChain H inputs).length = inputs.length ∧
    (0 < (buildChain H inputs).length →
      ((buildChain H inputs).getD 0 default).previous_hash = zeros64) ∧
    (∀ i, 0 < i → i < (buildChain H inputs).length →
      ((buildChain H inputs).getD i default).previous_hash
        = ((buildChain H inputs).getD (i - 1) default).hash) ∧
    (∀ i, i < (buildChain H inputs).length →
      calculate_hash H ((buildChain H inputs).getD i default).index
        ((buildChain H inputs).getD i default).timestamp
        ((buildChain H inputs).getD i default).data
        ((buildChain H inputs).getD i default).previous_hash
        = ((buildChain H inputs).getD i default).hash) ∧
    verify_chain H (buildChain H inputs) = .valid inputs.length := by
  have hinv0 : ledgerInv H ([] : List Block) := by
    refine ⟨?_, ?_, ?_⟩
    · intro h
      simp at h
    · intro i _ hi
      simp at hi
    · intro i hi
      simp at hi
  have hinv : ledgerInv H (buildChain H inputs) :=
    ledgerInv_foldl H inputs [] hinv0
  have hlen : (buildChain H inputs).length = inputs.length := by
    rw [buildChain, foldl_create_length]
    simp
  obtain ⟨hzero, hlink, hhash⟩ := hinv
  refine ⟨hlen, hzero, hlink, hhash, ?_⟩
  rw [← hlen]
  exact ledgerInv_verify_chain H (buildChain H inputs) ⟨hzero, hlink, hhash⟩

/-- Witness for C1: appending three blocks to the empty ledger yields a
ledger that verifies as valid with block count 3. -/
theorem create_block_chain_invariant_witness :
    verify_chain idH (buildChain idH [("a", "t0"), ("b", "t1"), ("c", "t2")]) = .valid 3 :=
  (create_block_chain_invariant idH [("a", "t0"), ("b", "t1"), ("c", "t2")]).2.2.2.2

/-! ## C5: Merkle root refinement -/

theorem merkleStep_cons_cons (H : String → String) (a b : String) (t : List String) :
    merkleStep H (a :: b :: t) = H (a ++ b) :: merkleStep H t := by
  by_cases hpar : t.length % 2 = 1
  · cases t with
    | nil => simp at hpar
    | cons c t2 =>
      simp only [merkleStep]
      rw [if_pos (by simp only [List.length_cons] at hpar ⊢; omega), if_pos hpar]
      have hl : (a :: b :: c :: t2).getLastD "" = (c :: t2).getLastD "" := by
        simp [List.getLastD_cons]
      rw [hl]
      rfl
  · simp only [merkleStep]
    rw [if_neg (by simp only [List.length_cons] at hpar ⊢; omega), if_neg hpar]
    rfl

theorem merkleStep_eq_specLevel (H : String → String) : ∀ hs, merkleStep H hs = specLevel H hs
  | [] => rfl
  | [a] => rfl
  | a :: b :: t => by
    rw [merkleStep_cons_cons, merkleStep_eq_specLevel H t]
    rfl

theorem specLevel_length (H : String → String) : ∀ hs : List String,
    (specLevel H hs).length = (hs.length + 1) / 2
  | [] => rfl
  | [a] => by simp [specLevel]
  | a :: b :: t => by
    have ht := specLevel_length H t
    simp only [specLevel, List.length_cons, ht]
    omega

theorem merkleLoop_eq_specCombine (H : String → String) :
    ∀ (fuel : Nat) (hs : List String), 1 ≤ hs.length → hs.length ≤ fuel →
    (merkleLoop H hs fuel).headD "" = specCombine H hs fuel := by
  intro fuel
  induction fuel with
  | zero =>
    intro hs h1 h2
    omega
  | succ fuel ih =>
    intro hs h1 h2
    cases hs with
    | nil => exact absurd h1 (by simp)
    | cons a hs2 =>
      cases hs2 with
      | nil => rfl
      | cons b t =>
        have hstep : merkleLoop H (a :: b :: t) (fuel + 1)
            = merkleLoop H (merkleStep H (a :: b :: t)) fuel := by
          simp only [merkleLoop]
          rw [if_pos (by simp)]
        rw [hstep, merkleStep_eq_specLevel]
        rw [show specCombine H (a :: b :: t) (fuel + 1)
            = specCombine H (specLevel H (a :: b :: t)) fuel from rfl]
        apply ih
        · rw [specLevel_length]
          simp only [List.length_cons]
          omega
        · rw [specLevel_length]
          simp only [List.length_cons] at h2 ⊢
          omega

/-- C5: `calculate_merkle_root` matches the specification-level Merkle
computation: the empty list yields the digest of the empty string, a
single-item list yields the digest of the item with no duplication, and in
general the levels reduce by hashing adjacent pairs left-to-right with the
last hash of an odd-sized level duplicated, until one root remains. -/
theorem merkleRootRefines (H : String → String) :
    calculate_merkle_root H [] = H "" ∧
    (∀ x, calculate_merkle_root H [x] = H x) ∧
    (∀ data_list, calculate_merkle_root H data_list = merkleRootSpec H data_list) := by
  refine ⟨rfl, fun x => rfl, ?_⟩
  intro l
  cases l with
  | nil => rfl
  | cons x xs =>
    show (merkleLoop H ((x :: xs).map H) ((x :: xs).map H).length).headD ""
        = specCombine H ((x :: xs).map H) (x :: xs).length
    have hmaplen : ((x :: xs).map H).length = (x :: xs).length := by simp
    calc (merkleLoop H ((x :: xs).map H) ((x :: xs).map H).length).headD ""
        = specCombine H ((x :: xs).map H) ((x :: xs).map H).length :=
          merkleLoop_eq_specCombine H _ _ (by simp) (le_refl _)
      _ = specCombine H ((x :: xs).map H) (x :: xs).length := by rw [hmaplen]

/-- Witness for C5: the three-item list of the end-to-end scenario. -/
theorem merkleRootRefines_witness :
    calculate_merkle_root idH ["a", "b", "c"] = merkleRootSpec idH ["a", "b", "c"] :=
  (merkleRootRefines idH).2.2 ["a", "b", "c"]

/-! ## C9: Merkle order sensitivity -/

/-- C9 counterexample: order sensitivity is not guaranteed by the code
alone — with a digest function that collides on the two second-level
preimages, the roots of `[a, b]` and `[b, a]` coincide even though the
digests of `a` and `b` differ; the claim holds only up to
collision-freeness of SHA-256. -/
theorem merkle_order_cex :
    collideH "a" ≠ collideH "b" ∧
    calculate_merkle_root collideH ["a", "b"]
      = calculate_merkle_root collideH ["b", "a"] := by decide

/-- C9 amended: for an injective digest function whose digests of `a` and
`b` have equal length (SHA-256 hex digests always have length 64) and
differ, the Merkle roots of `[a, b]` and `[b, a]` differ. -/
theorem merkle_order_sensitive (H : String → String) (hinj : Function.Injective H)
    (a b : String) (hlen : (H a).length = (H b).length) (hne : H a ≠ H b) :
    calculate_merkle_root H [a, b] ≠ calculate_merkle_root H [b, a] := by
  have e1 : calculate_merkle_root H [a, b] = H (H a ++ H b) := by
    simp [calculate_merkle_root, merkleLoop, merkleStep, pairUp]
  have e2 : calculate_merkle_root H [b, a] = H (H b ++ H a) := by
    simp [calculate_merkle_root, merkleLoop, merkleStep, pairUp]
  rw [e1, e2]
  intro heq
  have hcat : H a ++ H b = H b ++ H a := hinj heq
  have hdata : (H a).data ++ (H b).data = (H b).data ++ (H a).data := by
    have hc := congrArg String.data hcat
    simpa [String.data_append] using hc
  have hdlen : (H a).data.length = (H b).data.length := hlen
  have hd : (H a).data = (H b).data := by
    have h1 : ((H a).data ++ (H b).data).take (H a).data.length = (H a).data :=
      List.take_left _ _
    have h2 : ((H b).data ++ (H a).data).take (H a).data.length = (H b).data := by
      rw [hdlen]
      exact List.take_left _ _
    rw [hdata, h2] at h1
    exact h1.symm
  exact hne (congrArg String.mk hd)

/-- Witness for the amended C9: the identity digest separates the roots of
two equal-length distinct items. -/
theorem merkle_order_sensitive_witness :
    calculate_merkle_root idH ["a", "b"] ≠ calculate_merkle_root idH ["b", "a"] :=
  merkle_order_sensitive idH (fun _ _ h => h) "a" "b" rfl (by decide)
